import Mathlib

/-!
Shallow embedding of the superstep orchestration core of libgrape-lite:
`ParallelWorker::Query` / `Output` (src/grape/worker/parallel_worker.h) and
the WCC auto-parallel context (src/examples/analytical_apps/wcc/wcc_auto_context.h),
with theorems checking the natural-language specification against it.
-/

namespace Grape

/-- Observable actions performed by `ParallelWorker::Query`, in program order:
MPI barriers, context construction/binding/initialization, and the message-manager
calls `Start`, `StartARound`, `FinishARound`, `ToTerminate` (with its answer) and
`Finalize`, plus the two computation phases `PEval` and `IncEval`. -/
inductive Event where
  | barrier
  | ctxNew
  | ctxSetFragment
  | ctxInit
  | msgStart
  | startARound
  | peval
  | incEval
  | finishARound
  | toTerminate (ans : Bool)
  | finalizeMsg
  deriving DecidableEq

/-- Embedding of the `while (!messages_.ToTerminate())` loop of
`ParallelWorker::Query` (parallel_worker.h lines 105-117).  `term i` is the answer
of the i-th `ToTerminate()` call (a collective decision made by the message
manager, outside this core), `round` is the loop-carried `round` counter, and
`fuel` bounds the number of iterations so the function is total; `none` means the
fuel was exhausted before `ToTerminate()` answered true.  On termination it
returns the emitted events together with the final value of `round`. -/
def queryLoop (term : Nat → Bool) : Nat → Nat → Nat → Option (List Event × Nat)
  | 0, _, _ => none
  | fuel + 1, i, round =>
    if term i then
      some ([Event.toTerminate true], round)
    else
      match queryLoop term fuel (i + 1) (round + 1) with
      | none => none
      | some (evs, r) =>
        some (Event.toTerminate false :: Event.startARound :: Event.incEval ::
          Event.finishARound :: evs, r)

/-- Events of `ParallelWorker::Query` before the superstep loop (parallel_worker.h
lines 80-97): barrier, `context_ = make_shared`, `set_fragment`, `context_->Init`,
`messages_.Start()`, then the PEval round `StartARound; PEval; FinishARound`. -/
def queryPrelude : List Event :=
  [Event.barrier, Event.ctxNew, Event.ctxSetFragment, Event.ctxInit, Event.msgStart,
   Event.startARound, Event.peval, Event.finishARound]

/-- Full event trace of one `ParallelWorker::Query` call, paired with the final
value of the `round` counter: the prelude, the loop events, then the closing
barrier and `messages_.Finalize()` (parallel_worker.h lines 118-119). -/
def queryTrace (term : Nat → Bool) (fuel : Nat) : Option (List Event × Nat) :=
  match queryLoop term fuel 0 0 with
  | none => none
  | some (evs, r) =>
    some (queryPrelude ++ evs ++ [Event.barrier, Event.finalizeMsg], r)

/-- Closed form of the loop events when the k-th `ToTerminate()` answers true:
k blocks `toTerminate false; startARound; incEval; finishARound` followed by the
final `toTerminate true`. -/
def loopBody : Nat → List Event
  | 0 => [Event.toTerminate true]
  | k + 1 => Event.toTerminate false :: Event.startARound :: Event.incEval ::
      Event.finishARound :: loopBody k

/-- Loop events together with the closing barrier and `Finalize`. -/
def tailT (k : Nat) : List Event :=
  loopBody k ++ [Event.barrier, Event.finalizeMsg]

/-- Closed form of the whole trace when termination happens after k `IncEval`
rounds. -/
def fullTrace (k : Nat) : List Event :=
  queryPrelude ++ tailT k

lemma queryLoop_eq (term : Nat → Bool) :
    ∀ (k i round fuel : Nat), (∀ j, j < k → term (i + j) = false) →
      term (i + k) = true → k < fuel →
      queryLoop term fuel i round = some (loopBody k, round + k) := by
  intro k
  induction k with
  | zero =>
    intro i round fuel _ htrue hfuel
    match fuel, hfuel with
    | fuel + 1, _ =>
      simp only [Nat.add_zero] at htrue
      simp [queryLoop, htrue, loopBody]
  | succ k ih =>
    intro i round fuel hfalse htrue hfuel
    match fuel, hfuel with
    | fuel + 1, hfuel =>
      have h0 : term i = false := by
        have := hfalse 0 (Nat.succ_pos k)
        simpa using this
      have hrec : queryLoop term fuel (i + 1) (round + 1) =
          some (loopBody k, (round + 1) + k) := by
        apply ih
        · intro j hj
          have := hfalse (j + 1) (by omega)
          have harg : i + (j + 1) = (i + 1) + j := by omega
          rwa [harg] at this
        · have harg : i + (k + 1) = (i + 1) + k := by omega
          rwa [harg] at htrue
        · omega
      simp only [queryLoop, h0, Bool.false_eq_true, if_false, hrec]
      have : (round + 1) + k = round + (k + 1) := by omega
      rw [this]
      rfl

lemma queryTrace_eq (term : Nat → Bool) (fuel k : Nat)
    (hfalse : ∀ j, j < k → term j = false) (htrue : term k = true)
    (hfuel : k < fuel) :
    queryTrace term fuel = some (fullTrace k, k) := by
  have h := queryLoop_eq term k 0 0 fuel (by simpa using hfalse) (by simpa using htrue) hfuel
  simp [queryTrace, h, fullTrace, tailT]

lemma tailT_succ (k : Nat) :
    tailT (k + 1) = Event.toTerminate false :: Event.startARound :: Event.incEval ::
      Event.finishARound :: tailT k := by
  simp [tailT, loopBody]

lemma fullTrace_getElem_hi (k n : Nat) :
    (fullTrace k)[n + 8]? = (tailT k)[n]? := by
  simp [fullTrace, queryPrelude]

lemma loopBody_subset (k : Nat) : ∀ e ∈ loopBody k,
    e = Event.toTerminate true ∨ e = Event.toTerminate false ∨
    e = Event.startARound ∨ e = Event.incEval ∨ e = Event.finishARound := by
  induction k with
  | zero => intro e he; simp [loopBody] at he; tauto
  | succ k ih =>
    intro e he
    simp only [loopBody, List.mem_cons] at he
    rcases he with rfl | rfl | rfl | rfl | he
    · tauto
    · tauto
    · tauto
    · tauto
    · exact ih e he

lemma tailT_subset (k : Nat) : ∀ e ∈ tailT k,
    e = Event.toTerminate true ∨ e = Event.toTerminate false ∨
    e = Event.startARound ∨ e = Event.incEval ∨ e = Event.finishARound ∨
    e = Event.barrier ∨ e = Event.finalizeMsg := by
  intro e he
  simp only [tailT, List.mem_append, List.mem_cons] at he
  rcases he with he | he
  · have := loopBody_subset k e he
    tauto
  · simp at he
    tauto

lemma tailT_not_peval (k : Nat) : Event.peval ∉ tailT k := by
  intro h
  rcases tailT_subset k _ h with h' | h' | h' | h' | h' | h' | h' <;> cases h'

lemma tailT_head (k : Nat) : ∃ b, (tailT k)[0]? = some (Event.toTerminate b) ∧
    ((tailT k)[2]? = some Event.incEval ↔ b = false) := by
  cases k with
  | zero => exact ⟨true, by simp [tailT, loopBody]⟩
  | succ k => exact ⟨false, by simp [tailT_succ]⟩

lemma tailT_incEval_head (k : Nat) : (tailT k)[0]? ≠ some Event.incEval := by
  obtain ⟨b, hb, _⟩ := tailT_head k
  simp [hb]

lemma tailT_incEval_wrapped (k : Nat) : ∀ i,
    (tailT k)[i + 1]? = some Event.incEval →
    (tailT k)[i]? = some Event.startARound ∧
      (tailT k)[i + 2]? = some Event.finishARound := by
  induction k with
  | zero =>
    intro i h
    exfalso
    match i with
    | 0 | 1 => simp [tailT, loopBody] at h
    | n + 2 => simp [tailT, loopBody] at h
  | succ k ih =>
    intro i h
    rw [tailT_succ] at h ⊢
    match i with
    | 0 => simp at h
    | 1 => simp_all
    | 2 => simp at h
    | n + 3 =>
      simp only [List.getElem?_cons_succ] at h ⊢
      -- h is about (tailT k)[n + 1]? after removing three cons layers; the
      -- fourth layer leaves an index of the form m + 1 only when n ≥ 1
      match n, h with
      | 0, h => exact absurd h (tailT_incEval_head k)
      | m + 1, h =>
        have := ih m (by simpa using h)
        constructor
        · simpa using this.1
        · simpa using this.2

lemma tailT_finish_toTerminate (k : Nat) : ∀ i,
    (tailT k)[i]? = some Event.finishARound →
    ∃ b, (tailT k)[i + 1]? = some (Event.toTerminate b) ∧
      ((tailT k)[i + 3]? = some Event.incEval ↔ b = false) := by
  induction k with
  | zero =>
    intro i h
    exfalso
    match i with
    | 0 | 1 | 2 => simp [tailT, loopBody] at h
    | n + 3 => simp [tailT, loopBody] at h
  | succ k ih =>
    intro i h
    rw [tailT_succ] at h ⊢
    match i with
    | 0 | 1 | 2 => simp at h
    | 3 =>
      obtain ⟨b, hb, hiff⟩ := tailT_head k
      refine ⟨b, by simpa using hb, ?_⟩
      simpa using hiff
    | n + 4 =>
      simp only [List.getElem?_cons_succ] at h ⊢
      obtain ⟨b, hb, hiff⟩ := ih n h
      exact ⟨b, by simpa using hb, by simpa using hiff⟩

lemma fullTrace_peval_iff (k : Nat) : ∀ i,
    (fullTrace k)[i]? = some Event.peval ↔ i = 6 := by
  intro i
  constructor
  · intro h
    match i with
    | 0 | 1 | 2 | 3 | 4 | 5 | 7 => simp [fullTrace, queryPrelude] at h
    | 6 => rfl
    | n + 8 =>
      rw [fullTrace_getElem_hi] at h
      exact absurd (List.getElem?_mem h) (tailT_not_peval k)
  · rintro rfl
    simp [fullTrace, queryPrelude]

lemma fullTrace_incEval_ge (k : Nat) : ∀ i,
    (fullTrace k)[i]? = some Event.incEval → 8 ≤ i := by
  intro i h
  match i with
  | 0 | 1 | 2 | 3 | 4 | 5 | 6 | 7 => simp [fullTrace, queryPrelude] at h
  | n + 8 => omega

lemma fullTrace_eval_wrapped (k : Nat) : ∀ i,
    ((fullTrace k)[i + 1]? = some Event.peval ∨
      (fullTrace k)[i + 1]? = some Event.incEval) →
    (fullTrace k)[i]? = some Event.startARound ∧
      (fullTrace k)[i + 2]? = some Event.finishARound := by
  intro i h
  match i with
  | 0 | 1 | 2 | 3 | 4 | 6 =>
    rcases h with h | h <;> simp [fullTrace, queryPrelude] at h
  | 5 => simp [fullTrace, queryPrelude]
  | n + 7 =>
    have h8 : (fullTrace k)[n + 8]? = (tailT k)[n]? := fullTrace_getElem_hi k n
    rcases h with h | h
    · rw [show n + 7 + 1 = n + 8 from rfl, h8] at h
      exact absurd (List.getElem?_mem h) (tailT_not_peval k)
    · rw [show n + 7 + 1 = n + 8 from rfl, h8] at h
      match n, h with
      | 0, h => exact absurd h (tailT_incEval_head k)
      | m + 1, h =>
        obtain ⟨h1, h2⟩ := tailT_incEval_wrapped k m h
        constructor
        · rw [show m + 1 + 7 = m + 8 from rfl, fullTrace_getElem_hi]
          exact h1
        · rw [show m + 1 + 7 + 2 = (m + 2) + 8 from rfl, fullTrace_getElem_hi]
          exact h2

lemma fullTrace_finish_toTerminate (k : Nat) : ∀ i,
    (fullTrace k)[i]? = some Event.finishARound →
    ∃ b, (fullTrace k)[i + 1]? = some (Event.toTerminate b) ∧
      ((fullTrace k)[i + 3]? = some Event.incEval ↔ b = false) := by
  intro i h
  match i with
  | 0 | 1 | 2 | 3 | 4 | 5 | 6 => simp [fullTrace, queryPrelude] at h
  | 7 =>
    obtain ⟨b, hb, hiff⟩ := tailT_head k
    refine ⟨b, ?_, ?_⟩
    · rw [show 7 + 1 = 0 + 8 from rfl, fullTrace_getElem_hi]
      exact hb
    · rw [show 7 + 3 = 2 + 8 from rfl, fullTrace_getElem_hi]
      exact hiff
  | n + 8 =>
    rw [fullTrace_getElem_hi] at h
    obtain ⟨b, hb, hiff⟩ := tailT_finish_toTerminate k n h
    refine ⟨b, ?_, ?_⟩
    · rw [show n + 8 + 1 = (n + 1) + 8 from rfl, fullTrace_getElem_hi]
      exact hb
    · rw [show n + 8 + 3 = (n + 3) + 8 from rfl, fullTrace_getElem_hi]
      exact hiff

lemma loopBody_count_incEval (k : Nat) :
    (loopBody k).count Event.incEval = k := by
  induction k with
  | zero => simp [loopBody]
  | succ k ih => simp [loopBody, List.count_cons, ih]

lemma fullTrace_count_peval (k : Nat) :
    (fullTrace k).count Event.peval = 1 := by
  have h0 : (tailT k).count Event.peval = 0 :=
    List.count_eq_zero.mpr (tailT_not_peval k)
  simp [fullTrace, List.count_append, h0, queryPrelude, List.count_cons]

lemma fullTrace_count_incEval (k : Nat) :
    (fullTrace k).count Event.incEval = k := by
  simp [fullTrace, tailT, List.count_append, queryPrelude, List.count_cons,
    loopBody_count_incEval]

lemma loopBody_not_barrier (k : Nat) : Event.barrier ∉ loopBody k := by
  intro h
  rcases loopBody_subset k _ h with h' | h' | h' | h' | h' <;> cases h'

lemma loopBody_not_finalizeMsg (k : Nat) : Event.finalizeMsg ∉ loopBody k := by
  intro h
  rcases loopBody_subset k _ h with h' | h' | h' | h' | h' <;> cases h'

lemma tailT_not_ctxNew (k : Nat) : Event.ctxNew ∉ tailT k := by
  intro h
  rcases tailT_subset k _ h with h' | h' | h' | h' | h' | h' | h' <;> cases h'

lemma queryLoop_round_shift (term : Nat → Bool) :
    ∀ (fuel i r : Nat), queryLoop term fuel i r =
      (queryLoop term fuel i 0).map (fun p => (p.1, r + p.2)) := by
  intro fuel
  induction fuel with
  | zero => intro i r; simp [queryLoop]
  | succ fuel ih =>
    intro i r
    by_cases h : term i
    · simp [queryLoop, h]
    · simp only [queryLoop, h, Bool.false_eq_true, if_false]
      rw [ih (i + 1) (r + 1), ih (i + 1) (0 + 1)]
      cases queryLoop term fuel (i + 1) 0 with
      | none => rfl
      | some p =>
        obtain ⟨evs, r'⟩ := p
        simp only [Option.map_some']
        have harith : r + 1 + r' = r + (0 + 1 + r') := by omega
        rw [harith]

/-- C1: in every execution of `ParallelWorker::Query` (here: every terminating
trace, i.e. the k-th `ToTerminate()` answers true), `PEval` is invoked exactly
once and before any `IncEval`; every `PEval`/`IncEval` invocation is immediately
preceded by `StartARound` and immediately followed by `FinishARound`; and after
each `FinishARound` another `IncEval` round is performed iff the following
`ToTerminate()` answers false. -/
theorem query_superstep_protocol (term : Nat → Bool) (fuel k : Nat)
    (hfalse : ∀ j, j < k → term j = false) (htrue : term k = true)
    (hfuel : k < fuel) :
    ∃ tr r, queryTrace term fuel = some (tr, r) ∧
      tr.count Event.peval = 1 ∧
      (∀ (i j : Nat), tr[i]? = some Event.peval → tr[j]? = some Event.incEval → i < j) ∧
      (tr[0]? ≠ some Event.peval ∧ tr[0]? ≠ some Event.incEval) ∧
      (∀ i, (tr[i + 1]? = some Event.peval ∨ tr[i + 1]? = some Event.incEval) →
        tr[i]? = some Event.startARound ∧ tr[i + 2]? = some Event.finishARound) ∧
      (∀ i, tr[i]? = some Event.finishARound →
        ∃ b, tr[i + 1]? = some (Event.toTerminate b) ∧
          (tr[i + 3]? = some Event.incEval ↔ b = false)) := by
  refine ⟨fullTrace k, k, queryTrace_eq term fuel k hfalse htrue hfuel,
    fullTrace_count_peval k, ?_, ⟨?_, ?_⟩, fullTrace_eval_wrapped k,
    fullTrace_finish_toTerminate k⟩
  · intro i j hi hj
    have h6 : i = 6 := (fullTrace_peval_iff k i).1 hi
    have h8 := fullTrace_incEval_ge k j hj
    omega
  · intro h
    have := (fullTrace_peval_iff k 0).1 h
    omega
  · intro h
    have := fullTrace_incEval_ge k 0 h
    omega

/-- C1 witness: the superstep protocol theorem applied at the concrete oracle
that answers false once and then true, with fuel 2. -/
theorem query_superstep_protocol_witness :
    ∃ tr r, queryTrace (fun n : Nat => decide (0 < n)) 2 = some (tr, r) ∧
      tr.count Event.peval = 1 ∧
      (∀ (i j : Nat), tr[i]? = some Event.peval → tr[j]? = some Event.incEval → i < j) ∧
      (tr[0]? ≠ some Event.peval ∧ tr[0]? ≠ some Event.incEval) ∧
      (∀ i, (tr[i + 1]? = some Event.peval ∨ tr[i + 1]? = some Event.incEval) →
        tr[i]? = some Event.startARound ∧ tr[i + 2]? = some Event.finishARound) ∧
      (∀ i, tr[i]? = some Event.finishARound →
        ∃ b, tr[i + 1]? = some (Event.toTerminate b) ∧
          (tr[i + 3]? = some Event.incEval ↔ b = false)) :=
  query_superstep_protocol (fun n : Nat => decide (0 < n)) 2 1
    (by intro j hj; interval_cases j; rfl) (by rfl) (by omega)

/-- C2: every terminating execution of `ParallelWorker::Query` performs a global
barrier as its first action, before constructing and initializing the context,
and after the superstep loop exits it performs a second global barrier followed
directly by `messages_.Finalize()`; no other barrier or `Finalize` occurs in
between. -/
theorem query_barrier_bracketing (term : Nat → Bool) (fuel k : Nat)
    (hfalse : ∀ j, j < k → term j = false) (htrue : term k = true)
    (hfuel : k < fuel) :
    ∃ mid r, queryTrace term fuel =
      some (Event.barrier :: (mid ++ [Event.barrier, Event.finalizeMsg]), r) ∧
      mid[0]? = some Event.ctxNew ∧ mid[1]? = some Event.ctxSetFragment ∧
      mid[2]? = some Event.ctxInit ∧
      Event.barrier ∉ mid ∧ Event.finalizeMsg ∉ mid := by
  refine ⟨[Event.ctxNew, Event.ctxSetFragment, Event.ctxInit, Event.msgStart,
      Event.startARound, Event.peval, Event.finishARound] ++ loopBody k, k,
    ?_, by simp, by simp, by simp, ?_, ?_⟩
  · have h := queryTrace_eq term fuel k hfalse htrue hfuel
    rw [h]
    simp [fullTrace, queryPrelude, tailT]
  · intro hmem
    rw [List.mem_append] at hmem
    rcases hmem with hmem | hmem
    · simp at hmem
    · exact loopBody_not_barrier k hmem
  · intro hmem
    rw [List.mem_append] at hmem
    rcases hmem with hmem | hmem
    · simp at hmem
    · exact loopBody_not_finalizeMsg k hmem

/-- C2 witness: the barrier-bracketing theorem applied at the concrete oracle
that answers false once and then true, with fuel 2. -/
theorem query_barrier_bracketing_witness :
    ∃ mid r, queryTrace (fun n : Nat => decide (0 < n)) 2 =
      some (Event.barrier :: (mid ++ [Event.barrier, Event.finalizeMsg]), r) ∧
      mid[0]? = some Event.ctxNew ∧ mid[1]? = some Event.ctxSetFragment ∧
      mid[2]? = some Event.ctxInit ∧
      Event.barrier ∉ mid ∧ Event.finalizeMsg ∉ mid :=
  query_barrier_bracketing (fun n : Nat => decide (0 < n)) 2 1
    (by intro j hj; interval_cases j; rfl) (by rfl) (by omega)

/-- C8: every terminating execution of `ParallelWorker::Query` constructs exactly
one fresh context, binds it to the fragment, and calls `Context::Init` with the
message manager, all before `PEval` runs (every `PEval` occurrence lies strictly
after the three context events at positions 1, 2, 3). -/
theorem query_context_fresh (term : Nat → Bool) (fuel k : Nat)
    (hfalse : ∀ j, j < k → term j = false) (htrue : term k = true)
    (hfuel : k < fuel) :
    ∃ tr rest r, queryTrace term fuel = some (tr, r) ∧
      tr = Event.barrier :: Event.ctxNew :: Event.ctxSetFragment ::
        Event.ctxInit :: rest ∧
      tr.count Event.ctxNew = 1 ∧
      ∀ i, tr[i]? = some Event.peval → 4 ≤ i := by
  refine ⟨fullTrace k, [Event.msgStart, Event.startARound, Event.peval,
      Event.finishARound] ++ tailT k, k,
    queryTrace_eq term fuel k hfalse htrue hfuel, ?_, ?_, ?_⟩
  · simp [fullTrace, queryPrelude]
  · have h0 : (tailT k).count Event.ctxNew = 0 :=
      List.count_eq_zero.mpr (tailT_not_ctxNew k)
    simp [fullTrace, List.count_append, h0, queryPrelude, List.count_cons]
  · intro i h
    have := (fullTrace_peval_iff k i).1 h
    omega

/-- C8 witness: the fresh-context theorem applied at the concrete oracle that
answers false once and then true, with fuel 2. -/
theorem query_context_fresh_witness :
    ∃ tr rest r, queryTrace (fun n : Nat => decide (0 < n)) 2 = some (tr, r) ∧
      tr = Event.barrier :: Event.ctxNew :: Event.ctxSetFragment ::
        Event.ctxInit :: rest ∧
      tr.count Event.ctxNew = 1 ∧
      ∀ i, tr[i]? = some Event.peval → 4 ≤ i :=
  query_context_fresh (fun n : Nat => decide (0 < n)) 2 1
    (by intro j hj; interval_cases j; rfl) (by rfl) (by omega)

/-- C9: in `ParallelWorker::Query` the round counter starts at 0 and is
incremented exactly once per `IncEval`: on a terminating trace the final counter
value equals the number of `IncEval` events, and the counter is never consulted
by the termination decision — starting the loop from any counter value yields
the same events and the same termination behaviour, only the returned counter is
shifted. -/
theorem query_round_counter (term : Nat → Bool) (fuel k : Nat)
    (hfalse : ∀ j, j < k → term j = false) (htrue : term k = true)
    (hfuel : k < fuel) :
    (∃ tr, queryTrace term fuel = some (tr, k) ∧ tr.count Event.incEval = k) ∧
    ∀ (f i r : Nat), queryLoop term f i r =
      (queryLoop term f i 0).map (fun p => (p.1, r + p.2)) :=
  ⟨⟨fullTrace k, queryTrace_eq term fuel k hfalse htrue hfuel,
    fullTrace_count_incEval k⟩, queryLoop_round_shift term⟩

/-- C9 witness: the round-counter theorem applied at the concrete oracle that
answers false once and then true, with fuel 2. -/
theorem query_round_counter_witness :
    (∃ tr, queryTrace (fun n : Nat => decide (0 < n)) 2 = some (tr, 1) ∧
      tr.count Event.incEval = 1) ∧
    ∀ (f i r : Nat), queryLoop (fun n : Nat => decide (0 < n)) f i r =
      (queryLoop (fun n : Nat => decide (0 < n)) f i 0).map (fun p => (p.1, r + p.2)) :=
  query_round_counter (fun n : Nat => decide (0 < n)) 2 1
    (by intro j hj; interval_cases j; rfl) (by rfl) (by omega)

/-- The merge lambda registered on `global_cluster_id` in `WCCAutoContext::Init`
(wcc_auto_context.h lines 52-59): `if (*lhs > rhs) { *lhs = rhs; return true; }
else { return false; }`.  The in-place mutation of `*lhs` is embedded as a pure
function returning the new value of `*lhs` together with the returned Bool; the
component-id type `cid_t` (a machine integer) is modelled as `Nat`. -/
def wccMerge (lhs rhs : Nat) : Nat × Bool :=
  if lhs > rhs then (rhs, true) else (lhs, false)

/-- Repeated application of the merge lambda to one buffer entry, starting from
`initVal` and receiving the values of `incoming` in order. -/
def applyMerges (initVal : Nat) (incoming : List Nat) : Nat :=
  incoming.foldl (fun c r => (wccMerge c r).1) initVal

/-- Maximum representable value of the component-id type
(`std::numeric_limits<cid_t>::max()`), with `cid_t` modelled as a 64-bit
unsigned integer. -/
def cidMax : Nat := 2 ^ 64 - 1

/-- Maximum representable value of the vertex-id type
(`std::numeric_limits<vid_t>::max()`), with `vid_t` modelled as a 64-bit
unsigned integer. -/
def vidMax : Nat := 2 ^ 64 - 1

/-- Modelled from the spec: the external Fragment collaborator (§6) exposes
`Vertices()` (inner and outer), `InnerVertices()` and `GetId(vertex)`; vertices
are dense local indices and `getId` maps a vertex to its global id. -/
structure Fragment where
  vertices : List Nat
  innerVertices : List Nat
  getId : Nat → Nat

/-- Modelled from the spec: `SyncBuffer` (grape/utils, not under src/) is a
per-vertex value container over a vertex range with an aggregation function;
§4.2: `Init(vertexRange, sentinel, mergeFn)` allocates backing storage sized to
the range and fills it with the sentinel. -/
structure SyncBuffer (V : Type) where
  range : List Nat
  data : Nat → V
  aggregate : V → V → V × Bool

/-- Modelled from the spec: `SyncBuffer::Init` fills the storage with the
sentinel and stores the aggregation function. -/
def SyncBuffer.init {V : Type} (range : List Nat) (sentinel : V)
    (agg : V → V → V × Bool) : SyncBuffer V :=
  ⟨range, fun _ => sentinel, agg⟩

/-- Modelled from the spec: `VertexArray` (grape/utils, not under src/), a
per-vertex array over a vertex range whose `Init(range, value)` fills it with
the given value. -/
structure VertexArray (V : Type) where
  range : List Nat
  data : Nat → V

/-- Modelled from the spec: `VertexArray::Init`. -/
def VertexArray.init {V : Type} (range : List Nat) (v : V) : VertexArray V :=
  ⟨range, fun _ => v⟩

/-- Message strategies of grape; `WCCAutoContext` registers its buffer with
`kSyncOnOuterVertex`. -/
inductive MessageStrategy where
  | kSyncOnOuterVertex
  | kAlongOutgoingEdgeToOuterVertex
  | kAlongIncomingEdgeToOuterVertex
  | kAlongEdgeToOuterVertex
  deriving DecidableEq

/-- Modelled from the spec: `AutoParallelMessageManager` (not under src/) keeps
the buffer/strategy registrations made through `RegisterSyncBuffer` (§6). -/
structure AutoParallelMessageManager where
  registrations : List (SyncBuffer Nat × MessageStrategy)

/-- Modelled from the spec: `RegisterSyncBuffer(fragment, buffer, strategy)`
records a registration for automatic synchronization. -/
def AutoParallelMessageManager.registerSyncBuffer
    (m : AutoParallelMessageManager) (_frag : Fragment) (buf : SyncBuffer Nat)
    (strategy : MessageStrategy) : AutoParallelMessageManager :=
  ⟨m.registrations ++ [(buf, strategy)]⟩

/-- The WCC auto context (wcc_auto_context.h lines 31-78).  `vertexData` is the
per-vertex storage inherited from `VertexDataContext<FRAG_T, oid_t>` (written
through `this->SetValue`), modelled from the spec since the base class is not
under src/; the remaining fields are the members declared at lines 74-77. -/
structure WCCAutoContext where
  vertexData : Nat → Nat
  outer_vertices : List (List Nat)
  local_comp_id : VertexArray Nat
  global_comp_id : List Nat
  global_cluster_id : SyncBuffer Nat

/-- Embedding of `WCCAutoContext::Init` (wcc_auto_context.h lines 45-62):
`local_comp_id.Init(inner_vertices, vid-max)`, `global_cluster_id.Init(vertices,
cid-max, merge-lambda)`, then `messages.RegisterSyncBuffer(frag,
&global_cluster_id, kSyncOnOuterVertex)`. -/
def WCCAutoContext.init (frag : Fragment)
    (messages : AutoParallelMessageManager) :
    WCCAutoContext × AutoParallelMessageManager :=
  let vertices := frag.vertices
  let inner_vertices := frag.innerVertices
  let lci := VertexArray.init inner_vertices vidMax
  let gci := SyncBuffer.init vertices cidMax wccMerge
  let messages' := messages.registerSyncBuffer frag gci
    MessageStrategy.kSyncOnOuterVertex
  ({ vertexData := fun _ => 0, outer_vertices := [], local_comp_id := lci,
     global_comp_id := [], global_cluster_id := gci }, messages')

/-- One output line of `WCCAutoContext::Output`:
`os << frag.GetId(v) << " " << global_cluster_id.GetValue(v) << std::endl`. -/
def outputLine (gid val : Nat) : String :=
  toString gid ++ " " ++ toString val

/-- Body of the loop of `WCCAutoContext::Output` for one inner vertex:
`this->SetValue(v, global_cluster_id.GetValue(v))` followed by writing one line
to the stream (wcc_auto_context.h lines 68-71). -/
def outputStep (frag : Fragment) (acc : WCCAutoContext × List String)
    (v : Nat) : WCCAutoContext × List String :=
  ({ acc.1 with vertexData :=
      Function.update acc.1.vertexData v (acc.1.global_cluster_id.data v) },
   acc.2 ++ [outputLine (frag.getId v) (acc.1.global_cluster_id.data v)])

/-- Embedding of `WCCAutoContext::Output` (wcc_auto_context.h lines 64-72): the
loop over the inner vertices, returning the updated context and the written
lines in order. -/
def WCCAutoContext.output (frag : Fragment) (ctx : WCCAutoContext) :
    WCCAutoContext × List String :=
  frag.innerVertices.foldl (outputStep frag) (ctx, [])

/-- Embedding of `ParallelWorker::Output` (parallel_worker.h line 124):
`context_->Output(os)`. -/
def workerOutput (frag : Fragment) (ctx : WCCAutoContext) :
    WCCAutoContext × List String :=
  WCCAutoContext.output frag ctx

lemma wccMerge_fst (c r : Nat) : (wccMerge c r).1 = min c r := by
  rcases Nat.lt_or_ge r c with h | h
  · simp [wccMerge, h, Nat.min_eq_right (Nat.le_of_lt h)]
  · have hc : ¬(c > r) := by omega
    simp [wccMerge, hc, Nat.min_eq_left h]

lemma applyMerges_eq_foldl_min (initVal : Nat) (l : List Nat) :
    applyMerges initVal l = l.foldl min initVal := by
  have hf : (fun c r => (wccMerge c r).1) = fun c r : Nat => min c r := by
    funext c r
    exact wccMerge_fst c r
  rw [applyMerges, hf]

lemma foldl_min_mem (l : List Nat) : ∀ initVal : Nat,
    l.foldl min initVal ∈ initVal :: l := by
  induction l with
  | nil => intro i; simp
  | cons a l ih =>
    intro i
    rw [List.foldl_cons]
    rcases List.mem_cons.mp (ih (min i a)) with h | h
    · rw [h]
      rcases Nat.le_total i a with hle | hle
      · simp [Nat.min_eq_left hle]
      · simp [Nat.min_eq_right hle]
    · simp only [List.mem_cons]
      tauto

lemma foldl_min_le (l : List Nat) : ∀ (initVal x : Nat),
    x ∈ initVal :: l → l.foldl min initVal ≤ x := by
  induction l with
  | nil =>
    intro i x hx
    simp at hx
    simp [hx]
  | cons a l ih =>
    intro i x hx
    rw [List.foldl_cons]
    rcases List.mem_cons.mp hx with rfl | hx'
    · exact le_trans (ih (min x a) _ (List.mem_cons_self _ _)) (Nat.min_le_left x a)
    · rcases List.mem_cons.mp hx' with rfl | hx''
      · exact le_trans (ih (min i x) _ (List.mem_cons_self _ _)) (Nat.min_le_right i x)
      · exact ih (min i a) x (List.mem_cons.mpr (Or.inr hx''))

lemma output_foldl_spec (frag : Fragment) :
    ∀ (l : List Nat) (c : WCCAutoContext) (acc : List String),
      List.foldl (outputStep frag) (c, acc) l =
        ({ c with vertexData := fun x =>
            if x ∈ l then c.global_cluster_id.data x else c.vertexData x },
         acc ++ l.map (fun v => outputLine (frag.getId v)
           (c.global_cluster_id.data v))) := by
  intro l
  induction l with
  | nil =>
    intro c acc
    have hf : (fun x => if x ∈ ([] : List Nat) then c.global_cluster_id.data x
        else c.vertexData x) = c.vertexData := by
      funext x
      simp
    simp [hf]
  | cons v l ih =>
    intro c acc
    rw [List.foldl_cons]
    have hstep : outputStep frag (c, acc) v =
        ({ c with vertexData :=
            Function.update c.vertexData v (c.global_cluster_id.data v) },
         acc ++ [outputLine (frag.getId v) (c.global_cluster_id.data v)]) := rfl
    rw [hstep, ih]
    have hf : (fun x => if x ∈ l then c.global_cluster_id.data x
        else Function.update c.vertexData v (c.global_cluster_id.data v) x) =
        fun x => if x ∈ v :: l then c.global_cluster_id.data x
          else c.vertexData x := by
      funext x
      by_cases hxl : x ∈ l
      · simp [hxl]
      · by_cases hxv : x = v
        · subst hxv
          simp [hxl, Function.update_same]
        · simp [hxl, hxv, Function.update_noteq hxv]
    simp only [Prod.mk.injEq]
    constructor
    · rw [hf]
    · simp

/-- Single-fragment, 3-vertex fragment of the spec's output-format scenario:
inner vertices 1, 2, 3 in iteration order, global ids equal to the vertices. -/
def exampleFrag : Fragment :=
  ⟨[1, 2, 3], [1, 2, 3], fun v => v⟩

/-- Context whose `global_cluster_id` values are 1 ↦ 10, 2 ↦ 10, 3 ↦ 7, as in
the spec's output-format scenario. -/
def exampleCtx : WCCAutoContext where
  vertexData := fun _ => 0
  outer_vertices := []
  local_comp_id := VertexArray.init [1, 2, 3] vidMax
  global_comp_id := []
  global_cluster_id := ⟨[1, 2, 3],
    fun v => if v = 1 then 10 else if v = 2 then 10 else 7, wccMerge⟩

/-- C3: the merge function of the WCC `global_cluster_id` sync buffer writes
`*lhs = rhs` iff the incoming value strictly improves the current one
(`rhs < *lhs`), afterwards the current value equals `min` of the two, and it
returns true exactly when the value changed. -/
theorem wcc_merge_min (c r : Nat) :
    ((wccMerge c r).2 = true ↔ r < c) ∧
    (wccMerge c r).1 = min c r ∧
    ((wccMerge c r).2 = true ↔ (wccMerge c r).1 ≠ c) := by
  refine ⟨?_, wccMerge_fst c r, ?_⟩
  · rcases Nat.lt_or_ge r c with h | h
    · simp [wccMerge, h]
    · have hc : ¬(c > r) := by omega
      simp [wccMerge, hc]
  · rcases Nat.lt_or_ge r c with h | h
    · simp [wccMerge, h]
      omega
    · have hc : ¬(c > r) := by omega
      simp [wccMerge, hc]

/-- C4: folding the WCC merge function over any permutation of the incoming
values yields the same final buffer entry, namely the minimum of the initial
value and all incoming values. -/
theorem wcc_merge_order_independent (initVal : Nat) (l l' : List Nat)
    (hp : l.Perm l') :
    applyMerges initVal l = applyMerges initVal l' ∧
    applyMerges initVal l ∈ initVal :: l ∧
    ∀ x ∈ initVal :: l, applyMerges initVal l ≤ x := by
  refine ⟨?_, ?_, ?_⟩
  · rw [applyMerges_eq_foldl_min, applyMerges_eq_foldl_min]
    exact hp.foldl_eq'
      (fun x _ y _ z => by rw [Nat.min_assoc, Nat.min_comm x y, ← Nat.min_assoc])
      initVal
  · rw [applyMerges_eq_foldl_min]
    exact foldl_min_mem l initVal
  · intro x hx
    rw [applyMerges_eq_foldl_min]
    exact foldl_min_le l initVal x hx

/-- C4 witness: order independence applied at a concrete initial value and a
concrete permutation of incoming values. -/
theorem wcc_merge_order_independent_witness :
    applyMerges 5 [3, 9, 4] = applyMerges 5 [9, 4, 3] :=
  (wcc_merge_order_independent 5 [3, 9, 4] [9, 4, 3] (by decide)).1

/-- C5: applying the WCC merge a second time with the same incoming value is a
no-op: the entry keeps its value and the changed flag is false. -/
theorem wcc_merge_idempotent (c v : Nat) :
    wccMerge (wccMerge c v).1 v = ((wccMerge c v).1, false) := by
  rcases Nat.lt_or_ge v c with h | h
  · have h1 : (wccMerge c v).1 = v := by simp [wccMerge, h]
    rw [h1]
    simp [wccMerge]
  · have hc : ¬(c > v) := by omega
    have h1 : (wccMerge c v).1 = c := by simp [wccMerge, hc]
    rw [h1]
    simp [wccMerge, hc]

/-- C6: `WCCAutoContext::Init` fills `global_cluster_id` over the full vertex
set (inner and outer) with the maximum representable component id and installs
the merge lambda, fills `local_comp_id` over the inner vertices only with the
maximum vid, and registers `global_cluster_id` with the message manager under
`kSyncOnOuterVertex`. -/
theorem wcc_init_spec (frag : Fragment) (messages : AutoParallelMessageManager) :
    ((WCCAutoContext.init frag messages).1.global_cluster_id.range =
      frag.vertices) ∧
    (∀ v, (WCCAutoContext.init frag messages).1.global_cluster_id.data v =
      cidMax) ∧
    ((WCCAutoContext.init frag messages).1.global_cluster_id.aggregate =
      wccMerge) ∧
    ((WCCAutoContext.init frag messages).1.local_comp_id.range =
      frag.innerVertices) ∧
    (∀ v, (WCCAutoContext.init frag messages).1.local_comp_id.data v =
      vidMax) ∧
    ((WCCAutoContext.init frag messages).2.registrations =
      messages.registrations ++
        [((WCCAutoContext.init frag messages).1.global_cluster_id,
          MessageStrategy.kSyncOnOuterVertex)]) :=
  ⟨rfl, fun _ => rfl, rfl, rfl, fun _ => rfl, rfl⟩

/-- C7: `ParallelWorker::Output` delegates to `Context::Output`, which writes
exactly one line per inner vertex in iteration order, each line being the
global id, a space and the final sync-buffer value; on the spec's concrete
scenario (inner vertices 1, 2, 3 with values 10, 10, 7) the output is exactly
the lines `1 10`, `2 10`, `3 7`. -/
theorem worker_output_format (frag : Fragment) (ctx : WCCAutoContext) :
    workerOutput frag ctx = WCCAutoContext.output frag ctx ∧
    (workerOutput frag ctx).2 = frag.innerVertices.map
      (fun v => outputLine (frag.getId v) (ctx.global_cluster_id.data v)) ∧
    (workerOutput exampleFrag exampleCtx).2 = ["1 10", "2 10", "3 7"] := by
  refine ⟨rfl, ?_, ?_⟩
  · have h := output_foldl_spec frag frag.innerVertices ctx []
    unfold workerOutput WCCAutoContext.output
    rw [h]
    simp
  · decide

/-- C10: `WCCAutoContext::Output` leaves the sync buffer and every other field
unchanged except the inherited per-vertex data, which it sets, for each inner
vertex, to that vertex's sync-buffer value; consequently a second `Output`
produces the same text. -/
theorem wcc_output_frame (frag : Fragment) (ctx : WCCAutoContext) :
    ((WCCAutoContext.output frag ctx).1.global_cluster_id =
      ctx.global_cluster_id) ∧
    ((WCCAutoContext.output frag ctx).1.local_comp_id = ctx.local_comp_id) ∧
    ((WCCAutoContext.output frag ctx).1.outer_vertices = ctx.outer_vertices) ∧
    ((WCCAutoContext.output frag ctx).1.global_comp_id = ctx.global_comp_id) ∧
    (∀ x, (WCCAutoContext.output frag ctx).1.vertexData x =
      if x ∈ frag.innerVertices then ctx.global_cluster_id.data x
      else ctx.vertexData x) ∧
    ((WCCAutoContext.output frag (WCCAutoContext.output frag ctx).1).2 =
      (WCCAutoContext.output frag ctx).2) := by
  have h := output_foldl_spec frag frag.innerVertices ctx []
  have h2 := output_foldl_spec frag frag.innerVertices
    ({ ctx with vertexData := fun x =>
        if x ∈ frag.innerVertices then ctx.global_cluster_id.data x
        else ctx.vertexData x }) []
  unfold WCCAutoContext.output
  rw [h]
  exact ⟨rfl, rfl, rfl, rfl, fun _ => rfl, by rw [h2]⟩

end Grape
